import Mathlib

/-!
Verification development for the hub-frontend static package catalog.

The TypeScript sources are shallowly embedded as Lean definitions:
pure functions become Lean functions, the module-level fetch cache of
the packages service becomes an explicit state machine, JavaScript
strings are Lean strings (operated on through their character lists so
every definition evaluates by kernel reduction), JSON documents become
an inductive `Json` type (numbers are modelled as integers, which covers
the `last_update` Unix timestamp field the index schema uses), and
thrown errors become `Except` values.
-/

namespace Hub

/-- A validated package record (output of the valibot PackageSchema:
the raw fields plus the generated `id := name ++ "-" ++ version`). -/
structure Package where
  name : String
  author : String
  description : String
  title : String
  version : String
  archive_url : String
  archive_sha256_url : String
  tags : List String
  id : String
deriving DecidableEq

/-- Output of the valibot PackagesIndexSchema: `last_update` (a Unix
timestamp number, modelled as an integer) and the package list. -/
structure PackagesIndex where
  last_update : Int
  packages : List Package
deriving DecidableEq

/-- Model of JavaScript String.prototype.toLowerCase (ASCII letters;
the tags and queries this code lowercases are ASCII). -/
def jsToLower (s : String) : String :=
  String.mk (s.data.map Char.toLower)

/-- Model of JavaScript String.prototype.trim: drop leading and
trailing whitespace. -/
def jsTrim (s : String) : String :=
  String.mk (((s.data.dropWhile Char.isWhitespace).reverse.dropWhile Char.isWhitespace).reverse)

/-- textSearch from app/services/search.ts.  The Fuse.js fuzzy engine
is external library code, so it enters the embedding as an explicit
function argument `fuseSearch` standing for
`new Fuse(packages, opts).search(query).map(r => r.item)`. -/
def textSearch (fuseSearch : List Package → String → List Package)
    (packages : List Package) (query : String) : List Package :=
  if query == "" || jsTrim query == "" then packages
  else fuseSearch packages query

/-- filterByTags from app/services/search.ts: OR logic over the
selected tags with case-insensitive matching. -/
def filterByTags (packages : List Package) (tags : List String) : List Package :=
  if tags.isEmpty then packages
  else
    let lowerTags := tags.map jsToLower
    packages.filter (fun pkg => pkg.tags.any (fun pkgTag => lowerTags.contains (jsToLower pkgTag)))

/-- TagCount from app/services/search.ts. -/
structure TagCount where
  tag : String
  count : Nat
deriving DecidableEq

/-- applyFilters from app/services/search.ts: text search first (when
the query is truthy and not all whitespace), then tag filtering (when
the selected-tag list is non-empty). -/
def applyFilters (fuseSearch : List Package → String → List Package)
    (packages : List Package) (textQuery : String) (selectedTags : List String) :
    List Package :=
  let results := packages
  let results := if !(textQuery == "") && !(jsTrim textQuery == "") then
      textSearch fuseSearch results textQuery
    else results
  let results := if !selectedTags.isEmpty then filterByTags results selectedTags
    else results
  results

/-- A concrete package value used by the witness theorems. -/
def demoPkg (nm vers : String) (tags : List String) : Package :=
  { name := nm, author := "alice", description := "desc", title := "Title",
    version := vers, archive_url := "https://example.org/a.zip",
    archive_sha256_url := "https://example.org/a.sha256",
    tags := tags, id := nm ++ "-" ++ vers }

/-- C3: applyFilters is the composition of textSearch then filterByTags;
textSearch is the identity on an empty or all-whitespace query,
filterByTags is the identity on an empty tag list, and with both
filters trivial applyFilters returns its input unchanged.  Quantifying
over `fuseSearch` covers every possible behaviour of the Fuse.js
engine. -/
theorem applyFilters_decomposition
    (fuseSearch : List Package → String → List Package)
    (packages : List Package) (textQuery : String) (selectedTags : List String) :
    applyFilters fuseSearch packages textQuery selectedTags
      = filterByTags (textSearch fuseSearch packages textQuery) selectedTags
    ∧ (jsTrim textQuery = "" → textSearch fuseSearch packages textQuery = packages)
    ∧ filterByTags packages [] = packages
    ∧ (jsTrim textQuery = "" → applyFilters fuseSearch packages textQuery [] = packages) := by
  have hfilterNil : filterByTags packages [] = packages := by
    simp [filterByTags]
  have htext : ∀ q, jsTrim q = "" → textSearch fuseSearch packages q = packages := by
    intro q hq
    simp [textSearch, hq]
  refine ⟨?_, htext textQuery, hfilterNil, ?_⟩
  · unfold applyFilters
    by_cases h2 : jsTrim textQuery = ""
    · have hts : textSearch fuseSearch packages textQuery = packages := htext _ h2
      have hcond : (!(textQuery == "") && !(jsTrim textQuery == "")) = false := by
        simp [h2]
      rw [hcond, hts]
      cases selectedTags with
      | nil => simpa using hfilterNil.symm
      | cons a l => simp [List.isEmpty_cons]
    · have h1 : textQuery ≠ "" := by
        intro h
        exact h2 (by rw [h]; rfl)
      have hcond : (!(textQuery == "") && !(jsTrim textQuery == "")) = true := by
        simp [h1, h2]
      have hts : textSearch fuseSearch packages textQuery = fuseSearch packages textQuery := by
        simp [textSearch, h1, h2]
      rw [hcond, hts]
      cases selectedTags with
      | nil => simp [filterByTags, hts]
      | cons a l => simp [List.isEmpty_cons, hts]
  · intro hq
    have hts : textSearch fuseSearch packages textQuery = packages := htext _ hq
    have hcond : (!(textQuery == "") && !(jsTrim textQuery == "")) = false := by
      simp [hq]
    unfold applyFilters
    rw [hcond]
    simp

/-- C3 witness: the decomposition evaluated at a concrete query, tag
list, package list and a concrete stand-in for the fuzzy engine. -/
theorem applyFilters_decomposition_witness :
    applyFilters (fun ps _ => ps.reverse) [demoPkg "a" "1.0.0" ["x"]] "  " ["x"]
      = filterByTags (textSearch (fun ps _ => ps.reverse) [demoPkg "a" "1.0.0" ["x"]] "  ") ["x"]
    ∧ (jsTrim "  " = "" → textSearch (fun ps _ => ps.reverse) [demoPkg "a" "1.0.0" ["x"]] "  "
        = [demoPkg "a" "1.0.0" ["x"]]) :=
  ⟨(applyFilters_decomposition (fun ps _ => ps.reverse) [demoPkg "a" "1.0.0" ["x"]] "  " ["x"]).1,
   (applyFilters_decomposition (fun ps _ => ps.reverse) [demoPkg "a" "1.0.0" ["x"]] "  " ["x"]).2.1⟩

/-- C4: with a non-empty tag list, filterByTags keeps exactly the
packages having at least one tag that lowercases to the lowercase form
of some selected tag, and the result is a sublist (order-preserving
selection) of the input. -/
theorem filterByTags_or_semantics (packages : List Package) (tags : List String)
    (htags : tags ≠ []) :
    (∀ p, p ∈ filterByTags packages tags ↔
        p ∈ packages ∧ ∃ t ∈ p.tags, ∃ s ∈ tags, jsToLower t = jsToLower s)
    ∧ (filterByTags packages tags).Sublist packages := by
  have hne : tags.isEmpty = false := by
    cases tags with
    | nil => exact absurd rfl htags
    | cons a l => rfl
  constructor
  · intro p
    simp only [filterByTags, hne, Bool.false_eq_true, if_false, List.mem_filter,
      List.any_eq_true, List.contains, List.elem_iff, List.mem_map]
    constructor
    · rintro ⟨hp, t, ht, s, hs, hst⟩
      exact ⟨hp, t, ht, s, hs, hst.symm⟩
    · rintro ⟨hp, t, ht, s, hs, hst⟩
      exact ⟨hp, t, ht, s, hs, hst.symm⟩
  · simp only [filterByTags, hne, Bool.false_eq_true, if_false]
    exact List.filter_sublist packages

/-- Stable insertion step of the sort model. -/
def insertLe {α : Type} (le : α → α → Bool) (a : α) : List α → List α
  | [] => [a]
  | b :: bs => if le a b then a :: b :: bs else b :: insertLe le a bs

/-- Model of JavaScript Array.prototype.sort with a consistent
comparator: ECMAScript only requires the result to be a sorted, stable
permutation of the input, which this insertion sort produces. -/
def jsSort {α : Type} (le : α → α → Bool) : List α → List α
  | [] => []
  | a :: as => insertLe le a (jsSort le as)

theorem insertLe_perm {α : Type} (le : α → α → Bool) (a : α) (l : List α) :
    (insertLe le a l).Perm (a :: l) := by
  induction l with
  | nil => simp [insertLe]
  | cons b bs ih =>
    simp only [insertLe]
    split
    · exact List.Perm.refl _
    · exact (List.Perm.cons b ih).trans (List.Perm.swap a b bs)

theorem jsSort_perm {α : Type} (le : α → α → Bool) (l : List α) :
    (jsSort le l).Perm l := by
  induction l with
  | nil => simp [jsSort]
  | cons a as ih =>
    exact (insertLe_perm le a (jsSort le as)).trans (List.Perm.cons a ih)

theorem insertLe_pairwise {α : Type} {le : α → α → Bool}
    (htot : ∀ x y, le x y = true ∨ le y x = true)
    (htrans : ∀ x y z, le x y = true → le y z = true → le x z = true)
    (a : α) {l : List α} (hl : l.Pairwise (fun x y => le x y = true)) :
    (insertLe le a l).Pairwise (fun x y => le x y = true) := by
  induction l with
  | nil => simp [insertLe]
  | cons b bs ih =>
    simp only [insertLe]
    rcases List.pairwise_cons.mp hl with ⟨hb, hbs⟩
    split
    · rename_i hab
      refine List.pairwise_cons.mpr ⟨?_, hl⟩
      intro x hx
      rcases List.mem_cons.mp hx with rfl | hx
      · exact hab
      · exact htrans a b x hab (hb x hx)
    · rename_i hab
      have hba : le b a = true := by
        rcases htot a b with h | h
        · exact absurd h hab
        · exact h
      refine List.pairwise_cons.mpr ⟨?_, ih hbs⟩
      intro x hx
      rcases (insertLe_perm le a bs).mem_iff.mp hx with hx'
      rcases List.mem_cons.mp hx' with rfl | hx''
      · exact hba
      · exact hb x hx''

theorem jsSort_pairwise {α : Type} {le : α → α → Bool}
    (htot : ∀ x y, le x y = true ∨ le y x = true)
    (htrans : ∀ x y z, le x y = true → le y z = true → le x z = true)
    (l : List α) :
    (jsSort le l).Pairwise (fun x y => le x y = true) := by
  induction l with
  | nil => simp [jsSort]
  | cons a as ih => exact insertLe_pairwise htot htrans a ih

/-- Tokens of the numeric-aware string comparison: maximal digit runs
count as numbers, any other character stands for itself. -/
inductive NTok where
  | num (n : Nat)
  | ch (c : Char)
deriving DecidableEq

def natOrd (m n : Nat) : Ordering :=
  if m < n then .lt else if n < m then .gt else .eq

def charOrd (a b : Char) : Ordering :=
  if a < b then .lt else if b < a then .gt else .eq

def ntokOrd : NTok → NTok → Ordering
  | .num m, .num n => natOrd m n
  | .num _, .ch _ => .lt
  | .ch _, .num _ => .gt
  | .ch a, .ch b => charOrd a b

def lexOrd : List NTok → List NTok → Ordering
  | [], [] => .eq
  | [], _ :: _ => .lt
  | _ :: _, [] => .gt
  | x :: xs, y :: ys =>
    match ntokOrd x y with
    | .eq => lexOrd xs ys
    | o => o

/-- Digit-run accumulating tokenizer (structural recursion so that it
evaluates by kernel reduction). -/
def tokenizeAux : Option Nat → List Char → List NTok
  | acc, [] =>
    match acc with
    | some n => [.num n]
    | none => []
  | acc, c :: cs =>
    if c.isDigit then
      tokenizeAux (some ((acc.getD 0) * 10 + (c.toNat - 48))) cs
    else
      match acc with
      | some n => .num n :: .ch c :: tokenizeAux none cs
      | none => .ch c :: tokenizeAux none cs

def tokenize (cs : List Char) : List NTok := tokenizeAux none cs

/-- Model of JavaScript a.localeCompare(b, undefined, numeric: true):
numeric collation comparing digit runs by value and other characters by
code point, returned as an Ordering standing for the sign of the
JavaScript number. -/
def localeCompareNum (a b : String) : Ordering :=
  lexOrd (tokenize a.data) (tokenize b.data)

theorem natOrd_eq_iff {m n : Nat} : natOrd m n = .eq ↔ m = n := by
  unfold natOrd
  split
  · simp; omega
  · split
    · simp; omega
    · simp; omega

theorem natOrd_lt_iff {m n : Nat} : natOrd m n = .lt ↔ m < n := by
  unfold natOrd
  split
  · simp; omega
  · split <;> simp <;> omega

theorem natOrd_gt_iff {m n : Nat} : natOrd m n = .gt ↔ n < m := by
  unfold natOrd
  split
  · simp; omega
  · split <;> simp <;> omega

theorem charOrd_eq_iff {a b : Char} : charOrd a b = .eq ↔ a = b := by
  unfold charOrd
  rcases lt_trichotomy a b with h | h | h
  · have hne : a ≠ b := ne_of_lt h
    simp [h, hne]
  · subst h
    simp [lt_irrefl]
  · have h1 : ¬ a < b := not_lt.mpr h.le
    have hne : a ≠ b := (ne_of_lt h).symm
    simp [h1, h, hne]

theorem charOrd_lt_iff {a b : Char} : charOrd a b = .lt ↔ a < b := by
  unfold charOrd
  rcases lt_trichotomy a b with h | h | h
  · simp [h]
  · subst h
    simp [lt_irrefl]
  · have h1 : ¬ a < b := not_lt.mpr h.le
    simp [h1, h]

theorem charOrd_gt_iff {a b : Char} : charOrd a b = .gt ↔ b < a := by
  unfold charOrd
  rcases lt_trichotomy a b with h | h | h
  · have h1 : ¬ b < a := not_lt.mpr h.le
    simp [h, h1]
  · subst h
    simp [lt_irrefl]
  · have h1 : ¬ a < b := not_lt.mpr h.le
    simp [h1, h]

theorem ntokOrd_eq_iff {x y : NTok} : ntokOrd x y = .eq ↔ x = y := by
  cases x <;> cases y <;> simp [ntokOrd, natOrd_eq_iff, charOrd_eq_iff]

theorem ntokOrd_gt_iff_lt {x y : NTok} : ntokOrd x y = .gt ↔ ntokOrd y x = .lt := by
  cases x <;> cases y <;>
    simp [ntokOrd, natOrd_gt_iff, natOrd_lt_iff, charOrd_gt_iff, charOrd_lt_iff]

theorem ntokOrd_lt_trans {x y z : NTok} (h1 : ntokOrd x y = .lt)
    (h2 : ntokOrd y z = .lt) : ntokOrd x z = .lt := by
  cases x <;> cases y <;> cases z <;>
    simp_all [ntokOrd, natOrd_lt_iff, charOrd_lt_iff]
  · omega
  · exact lt_trans h1 h2

theorem lexOrd_eq_iff : ∀ {xs ys : List NTok}, lexOrd xs ys = .eq ↔ xs = ys := by
  intro xs
  induction xs with
  | nil => intro ys; cases ys <;> simp [lexOrd]
  | cons x xs ih =>
    intro ys
    cases ys with
    | nil => simp [lexOrd]
    | cons y ys =>
      simp only [lexOrd]
      cases h : ntokOrd x y with
      | eq =>
        have hxy : x = y := ntokOrd_eq_iff.mp h
        simp [hxy, ih]
      | lt =>
        have hxy : x ≠ y := by
          intro hc
          rw [ntokOrd_eq_iff.mpr hc] at h
          simp at h
        simp [hxy]
      | gt =>
        have hxy : x ≠ y := by
          intro hc
          rw [ntokOrd_eq_iff.mpr hc] at h
          simp at h
        simp [hxy]

theorem lexOrd_gt_iff_lt : ∀ {xs ys : List NTok}, lexOrd xs ys = .gt ↔ lexOrd ys xs = .lt := by
  intro xs
  induction xs with
  | nil => intro ys; cases ys <;> simp [lexOrd]
  | cons x xs ih =>
    intro ys
    cases ys with
    | nil => simp [lexOrd]
    | cons y ys =>
      simp only [lexOrd]
      cases h : ntokOrd x y with
      | eq =>
        have h' : ntokOrd y x = .eq := ntokOrd_eq_iff.mpr (ntokOrd_eq_iff.mp h).symm
        simp [h', ih]
      | lt =>
        have h' : ntokOrd y x = .gt := ntokOrd_gt_iff_lt.mpr h
        simp [h']
      | gt =>
        have h' : ntokOrd y x = .lt := ntokOrd_gt_iff_lt.mp h
        simp [h']

theorem lexOrd_lt_trans : ∀ {xs ys zs : List NTok}, lexOrd xs ys = .lt →
    lexOrd ys zs = .lt → lexOrd xs zs = .lt := by
  intro xs
  induction xs with
  | nil =>
    intro ys zs h1 h2
    cases ys with
    | nil => exact h2
    | cons y ys =>
      cases zs with
      | nil => simp [lexOrd] at h2
      | cons z zs => simp [lexOrd]
  | cons x xs ih =>
    intro ys zs h1 h2
    cases ys with
    | nil => simp [lexOrd] at h1
    | cons y ys =>
      cases zs with
      | nil => simp [lexOrd] at h2
      | cons z zs =>
        simp only [lexOrd] at h1 h2 ⊢
        cases hxy : ntokOrd x y with
        | eq =>
          have : x = y := ntokOrd_eq_iff.mp hxy
          subst this
          rw [hxy] at h1
          cases hyz : ntokOrd x z with
          | eq =>
            have : x = z := ntokOrd_eq_iff.mp hyz
            subst this
            rw [hyz] at h2
            exact ih h1 h2
          | lt => rfl
          | gt => rw [hyz] at h2; exact absurd h2 (by simp)
        | lt =>
          rw [hxy] at h1
          cases hyz : ntokOrd y z with
          | eq =>
            have : y = z := ntokOrd_eq_iff.mp hyz
            subst this
            rw [hxy]
          | lt =>
            have : ntokOrd x z = .lt := ntokOrd_lt_trans hxy hyz
            rw [this]
          | gt => rw [hyz] at h2; exact absurd h2 (by simp)
        | gt => rw [hxy] at h1; exact absurd h1 (by simp)

theorem lexOrd_refl (xs : List NTok) : lexOrd xs xs = .eq := lexOrd_eq_iff.mpr rfl

/-- The comparator-induced order used on version strings: the
descending sort comparator (a, b) => b.localeCompare(a, undefined,
numeric: true) places a before b exactly when this holds of (a, b). -/
def versionDescLe (a b : String) : Bool := decide (localeCompareNum b a ≠ Ordering.gt)

theorem versionDescLe_total (a b : String) :
    versionDescLe a b = true ∨ versionDescLe b a = true := by
  unfold versionDescLe
  by_cases h : localeCompareNum b a = Ordering.gt
  · right
    simp only [decide_eq_true_eq]
    unfold localeCompareNum at h ⊢
    rw [lexOrd_gt_iff_lt] at h
    simp [h]
  · left
    simp [h]

theorem versionDescLe_trans (a b c : String) (h1 : versionDescLe a b = true)
    (h2 : versionDescLe b c = true) : versionDescLe a c = true := by
  unfold versionDescLe localeCompareNum at h1 h2 ⊢
  simp only [decide_eq_true_eq] at h1 h2 ⊢
  intro hgt
  rcases hba : lexOrd (tokenize b.data) (tokenize a.data) with _ | _ | _
  · rcases hcb : lexOrd (tokenize c.data) (tokenize b.data) with _ | _ | _
    · have hca : lexOrd (tokenize c.data) (tokenize a.data) = .lt :=
        lexOrd_lt_trans hcb hba
      rw [hca] at hgt
      simp at hgt
    · rw [lexOrd_eq_iff.mp hcb, hba] at hgt
      simp at hgt
    · exact h2 hcb
  · rw [lexOrd_eq_iff.mp hba] at h2
    exact h2 hgt
  · exact h1 hba

/-- The inline comparator of getPackageByName and getVersionsForPackage
lifted to packages. -/
def pkgVersionDescLe (a b : Package) : Bool := versionDescLe a.version b.version

/-- Model of JavaScript Array.from(new Set(list)) for strings: first
occurrence of each element, in insertion order. -/
def jsSetFromList (l : List String) : List String :=
  l.foldl (fun acc x => if acc.contains x then acc else acc ++ [x]) []

theorem mem_jsSetFromList_aux (l : List String) :
    ∀ acc x, x ∈ l.foldl (fun acc x => if acc.contains x then acc else acc ++ [x]) acc ↔
      x ∈ acc ∨ x ∈ l := by
  induction l with
  | nil => intro acc x; simp
  | cons a as ih =>
    intro acc x
    simp only [List.foldl_cons]
    by_cases ha : acc.contains a
    · rw [if_pos ha]
      rw [ih]
      constructor
      · rintro (h | h)
        · exact Or.inl h
        · exact Or.inr (List.mem_cons_of_mem a h)
      · rintro (h | h)
        · exact Or.inl h
        · rcases List.mem_cons.mp h with rfl | h'
          · exact Or.inl (by simpa [List.contains, List.elem_iff] using ha)
          · exact Or.inr h'
    · rw [if_neg ha]
      rw [ih]
      constructor
      · rintro (h | h)
        · rcases List.mem_append.mp h with h' | h'
          · exact Or.inl h'
          · simp at h'
            exact Or.inr (h' ▸ List.mem_cons_self a as)
        · exact Or.inr (List.mem_cons_of_mem a h)
      · rintro (h | h)
        · exact Or.inl (List.mem_append.mpr (Or.inl h))
        · rcases List.mem_cons.mp h with rfl | h'
          · exact Or.inl (List.mem_append.mpr (Or.inr (by simp)))
          · exact Or.inr h'

theorem mem_jsSetFromList {l : List String} {x : String} :
    x ∈ jsSetFromList l ↔ x ∈ l := by
  unfold jsSetFromList
  rw [mem_jsSetFromList_aux]
  simp

/-- getUniquePackageNames from app/services/packages.ts (given the
index already obtained by getPackagesIndex). -/
def getUniquePackageNames (idx : PackagesIndex) : List String :=
  jsSetFromList (idx.packages.map (fun pkg => pkg.name))

/-- getPackageByName from app/services/packages.ts: all versions of the
named package, sorted descending by numeric version comparison, first
element; null when there is no version at all. -/
def getPackageByName (idx : PackagesIndex) (packageName : String) : Option Package :=
  match idx.packages.filter (fun pkg => pkg.name == packageName) with
  | [] => none
  | p :: rest => (jsSort pkgVersionDescLe (p :: rest)).head?

/-- getPackageByNameAndVersion from app/services/packages.ts. -/
def getPackageByNameAndVersion (idx : PackagesIndex) (name version : String) :
    Option Package :=
  idx.packages.find? (fun p => p.name == name && p.version == version)

/-- getVersionsForPackage from app/services/packages.ts: version
strings of the named package sorted descending, then deduplicated in
order. -/
def getVersionsForPackage (idx : PackagesIndex) (name : String) : List String :=
  jsSetFromList
    (jsSort versionDescLe ((idx.packages.filter (fun p => p.name == name)).map
      (fun p => p.version)))

/-- getAllPackageVersionPaths from app/services/packages.ts. -/
def getAllPackageVersionPaths (idx : PackagesIndex) : List String :=
  idx.packages.map (fun p => "/" ++ p.name ++ "/v/" ++ p.version)

/-- The prerender function of react-router.config.ts: the root path,
one path per unique package name, and one versioned path per index
entry. -/
def prerender (idx : PackagesIndex) : List String :=
  "/" :: ((getUniquePackageNames idx).map (fun name => "/" ++ name)
    ++ getAllPackageVersionPaths idx)

theorem pkgVersionDescLe_total (x y : Package) :
    pkgVersionDescLe x y = true ∨ pkgVersionDescLe y x = true :=
  versionDescLe_total x.version y.version

theorem pkgVersionDescLe_trans (x y z : Package)
    (h1 : pkgVersionDescLe x y = true) (h2 : pkgVersionDescLe y z = true) :
    pkgVersionDescLe x z = true :=
  versionDescLe_trans _ _ _ h1 h2

/-- C5: getPackageByName is null exactly when no index entry bears the
requested name; otherwise it returns an entry with that name whose
version string is maximal among all entries of that name under the
numeric string comparison. -/
theorem getPackageByName_latest (idx : PackagesIndex) (packageName : String) :
    (getPackageByName idx packageName = none ↔ ∀ p ∈ idx.packages, p.name ≠ packageName)
    ∧ (∀ r, getPackageByName idx packageName = some r →
        r ∈ idx.packages ∧ r.name = packageName ∧
        ∀ q ∈ idx.packages, q.name = packageName →
          localeCompareNum q.version r.version ≠ Ordering.gt) := by
  constructor
  · cases hpv : idx.packages.filter (fun pkg => pkg.name == packageName) with
    | nil =>
      have hnone : getPackageByName idx packageName = none := by
        unfold getPackageByName
        rw [hpv]
      rw [hnone]
      simp only [true_iff]
      intro p hp hname
      have : p ∈ idx.packages.filter (fun pkg => pkg.name == packageName) :=
        List.mem_filter.mpr ⟨hp, by simp [hname]⟩
      rw [hpv] at this
      exact absurd this (List.not_mem_nil p)
    | cons p rest =>
      have hne : jsSort pkgVersionDescLe (p :: rest) ≠ [] := by
        intro hnil
        have hlen := (jsSort_perm pkgVersionDescLe (p :: rest)).length_eq
        rw [hnil] at hlen
        simp at hlen
      obtain ⟨r, hr⟩ : ∃ r, getPackageByName idx packageName = some r := by
        unfold getPackageByName
        rw [hpv]
        cases hs : jsSort pkgVersionDescLe (p :: rest) with
        | nil => exact absurd hs hne
        | cons r rs =>
          refine ⟨r, ?_⟩
          show (jsSort pkgVersionDescLe (p :: rest)).head? = some r
          rw [hs]
          rfl
      rw [hr]
      constructor
      · intro h
        cases h
      · intro hall
        have hpmem : p ∈ idx.packages.filter (fun pkg => pkg.name == packageName) := by
          rw [hpv]
          exact List.mem_cons_self p rest
        obtain ⟨hmem, hbeq⟩ := List.mem_filter.mp hpmem
        exact absurd (by simpa using hbeq) (hall p hmem)
  · intro r hr
    cases hpv : idx.packages.filter (fun pkg => pkg.name == packageName) with
    | nil =>
      unfold getPackageByName at hr
      rw [hpv] at hr
      cases hr
    | cons p rest =>
      unfold getPackageByName at hr
      rw [hpv] at hr
      have hr' : (jsSort pkgVersionDescLe (p :: rest)).head? = some r := hr
      cases hs : jsSort pkgVersionDescLe (p :: rest) with
      | nil =>
        rw [hs] at hr'
        cases hr'
      | cons r0 rs =>
        rw [hs] at hr'
        simp only [List.head?_cons, Option.some.injEq] at hr'
        subst hr'
        have hperm := jsSort_perm pkgVersionDescLe (p :: rest)
        rw [hs] at hperm
        have hmemfil : r0 ∈ idx.packages.filter (fun pkg => pkg.name == packageName) := by
          rw [hpv]
          exact hperm.mem_iff.mp (List.mem_cons_self r0 rs)
        obtain ⟨hmem, hbeq⟩ := List.mem_filter.mp hmemfil
        refine ⟨hmem, by simpa using hbeq, ?_⟩
        intro q hq hqname
        have hqfil : q ∈ idx.packages.filter (fun pkg => pkg.name == packageName) :=
          List.mem_filter.mpr ⟨hq, by simp [hqname]⟩
        have hqsorted : q ∈ r0 :: rs := by
          rw [hpv] at hqfil
          exact hperm.mem_iff.mpr hqfil
        have hpw := jsSort_pairwise pkgVersionDescLe_total pkgVersionDescLe_trans (p :: rest)
        rw [hs] at hpw
        rcases List.mem_cons.mp hqsorted with rfl | hq'
        · unfold localeCompareNum
          rw [lexOrd_refl]
          simp
        · have hler := (List.pairwise_cons.mp hpw).1 q hq'
          simpa [pkgVersionDescLe, versionDescLe] using hler

/-- A concrete index for witnesses: two versions of "pkg" where the
numeric comparison must pick "1.10.0" over "1.9.0", plus another
package. -/
def demoIdx : PackagesIndex :=
  { last_update := 1700000000,
    packages := [demoPkg "pkg" "1.9.0" ["emoji"], demoPkg "pkg" "1.10.0" ["Emoji"],
      demoPkg "other" "0.1.0" ["tools"]] }

/-- C5 witness: on the concrete index the latest lookup picks the
numerically larger version 1.10.0, and the none case follows from the
theorem applied to an absent name. -/
theorem getPackageByName_latest_witness :
    getPackageByName demoIdx "pkg" = some (demoPkg "pkg" "1.10.0" ["Emoji"])
    ∧ (getPackageByName demoIdx "absent" = none ↔
        ∀ p ∈ demoIdx.packages, p.name ≠ "absent") :=
  ⟨by decide, (getPackageByName_latest demoIdx "absent").1⟩

/-- C7: the prerendered path list holds the root path, a path per
unique package name and a versioned path per index entry, and nothing
else. -/
theorem prerender_paths (idx : PackagesIndex) :
    "/" ∈ prerender idx
    ∧ (∀ p ∈ idx.packages,
        ("/" ++ p.name) ∈ prerender idx
        ∧ ("/" ++ p.name ++ "/v/" ++ p.version) ∈ prerender idx)
    ∧ (∀ q ∈ prerender idx, q = "/"
        ∨ (∃ p ∈ idx.packages, q = "/" ++ p.name)
        ∨ (∃ p ∈ idx.packages, q = "/" ++ p.name ++ "/v/" ++ p.version)) := by
  unfold prerender getUniquePackageNames getAllPackageVersionPaths
  refine ⟨List.mem_cons_self _ _, ?_, ?_⟩
  · intro p hp
    constructor
    · refine List.mem_cons_of_mem _ (List.mem_append.mpr (Or.inl ?_))
      refine List.mem_map.mpr ⟨p.name, ?_, rfl⟩
      exact mem_jsSetFromList.mpr (List.mem_map.mpr ⟨p, hp, rfl⟩)
    · refine List.mem_cons_of_mem _ (List.mem_append.mpr (Or.inr ?_))
      exact List.mem_map.mpr ⟨p, hp, rfl⟩
  · intro q hq
    rcases List.mem_cons.mp hq with rfl | hq'
    · exact Or.inl rfl
    rcases List.mem_append.mp hq' with h | h
    · obtain ⟨nm, hnm, rfl⟩ := List.mem_map.mp h
      obtain ⟨p, hp, rfl⟩ := List.mem_map.mp (mem_jsSetFromList.mp hnm)
      exact Or.inr (Or.inl ⟨p, hp, rfl⟩)
    · obtain ⟨p, hp, rfl⟩ := List.mem_map.mp h
      exact Or.inr (Or.inr ⟨p, hp, rfl⟩)

/-- C7 witness: the path facts instantiated on the concrete index. -/
theorem prerender_paths_witness :
    ("/" ++ "pkg" ++ "/v/" ++ "1.9.0") ∈ prerender demoIdx
    ∧ ("/" ++ "other") ∈ prerender demoIdx
    ∧ "/" ∈ prerender demoIdx :=
  ⟨((prerender_paths demoIdx).2.1 (demoPkg "pkg" "1.9.0" ["emoji"]) (by decide)).2,
   ((prerender_paths demoIdx).2.1 (demoPkg "other" "0.1.0" ["tools"]) (by decide)).1,
   (prerender_paths demoIdx).1⟩

/-- Loader result shape of the package route (app/routes/package.tsx). -/
structure PackageLoaderData where
  package : Package
  versions : List String
  isLatest : Bool
deriving DecidableEq

/-- The lookup the package route loader performs:
getPackageByNameAndVersion when a version parameter is present,
getPackageByName otherwise. -/
def packageLookup (idx : PackagesIndex) (packageName : String)
    (version : Option String) : Option Package :=
  match version with
  | some v => getPackageByNameAndVersion idx packageName v
  | none => getPackageByName idx packageName

/-- The package route loader: 404 Response when the lookup is null,
otherwise the package with its version list and latest flag.  The
thrown Response is modelled by the error status code. -/
def packageLoader (idx : PackagesIndex) (packageName : String)
    (version : Option String) : Except Nat PackageLoaderData :=
  match packageLookup idx packageName version with
  | none => .error 404
  | some p =>
    let versions := getVersionsForPackage idx packageName
    .ok { package := p, versions := versions,
          isLatest := version.isNone || (versions.head? == version) }

/-- C10: the loader throws 404 exactly when the lookup returns null,
404 is the only thrown status, and on success the looked-up package is
returned unmodified in the loader data. -/
theorem packageLoader_spec (idx : PackagesIndex) (packageName : String)
    (version : Option String) :
    (packageLoader idx packageName version = .error 404 ↔
      packageLookup idx packageName version = none)
    ∧ (∀ e, packageLoader idx packageName version = .error e → e = 404)
    ∧ (∀ p, packageLookup idx packageName version = some p →
        ∃ d, packageLoader idx packageName version = .ok d ∧ d.package = p) := by
  cases hl : packageLookup idx packageName version with
  | none =>
    have hload : packageLoader idx packageName version = .error 404 := by
      unfold packageLoader
      rw [hl]
    refine ⟨by simp [hload, hl], ?_, ?_⟩
    · intro e he
      rw [hload] at he
      simp only [Except.error.injEq] at he
      exact he.symm
    · intro p hp
      cases hp
  | some p0 =>
    have hload : packageLoader idx packageName version =
        .ok { package := p0, versions := getVersionsForPackage idx packageName,
              isLatest := version.isNone ||
                ((getVersionsForPackage idx packageName).head? == version) } := by
      unfold packageLoader
      rw [hl]
    refine ⟨by simp [hload, hl], ?_, ?_⟩
    · intro e he
      rw [hload] at he
      cases he
    · intro p hp
      simp only [Option.some.injEq] at hp
      subst hp
      exact ⟨_, hload, rfl⟩

/-- C10 witness: on the concrete index the versioned lookup succeeds
and returns the package unchanged, and an absent name yields the 404
error. -/
theorem packageLoader_spec_witness :
    (∃ d, packageLoader demoIdx "pkg" (some "1.9.0") = Except.ok d
      ∧ d.package = demoPkg "pkg" "1.9.0" ["emoji"])
    ∧ packageLoader demoIdx "absent" none = Except.error 404 :=
  ⟨(packageLoader_spec demoIdx "pkg" (some "1.9.0")).2.2 _ (by decide),
   (packageLoader_spec demoIdx "absent" none).1.mpr (by decide)⟩

/-- JSON documents (numbers as integers, see the module comment). -/
inductive Json where
  | jnull
  | jbool (b : Bool)
  | jnum (n : Int)
  | jstr (s : String)
  | jarr (elems : List Json)
  | jobj (fields : List (String × Json))

/-- Key lookup in a JSON object. -/
def jsonField (fields : List (String × Json)) (key : String) : Option Json :=
  (fields.find? (fun f => f.fst == key)).map (fun f => f.snd)

/-- v.string() -/
def parseStr : Json → Option String
  | .jstr s => some s
  | _ => none

/-- v.number() -/
def parseNum : Json → Option Int
  | .jnum n => some n
  | _ => none

/-- A non-empty all-digit character run. -/
def digitRun (cs : List Char) : Bool := !cs.isEmpty && cs.all Char.isDigit

/-- Split a character list at every dot. -/
def splitDots : List Char → List (List Char)
  | [] => [[]]
  | c :: rest =>
    if c = '.' then [] :: splitDots rest
    else
      match splitDots rest with
      | [] => [[c]]
      | h :: t => (c :: h) :: t

/-- The PackageVersionSchema regex of app/model/packages.ts: a version
string must match three dot-separated digit runs. -/
def isSemver (s : String) : Bool :=
  match splitDots s.data with
  | [a, b, c] => digitRun a && digitRun b && digitRun c
  | _ => false

/-- v.array(v.string()): every element must be a string. -/
def parseStrList : Json → Option (List String)
  | .jarr elems => go elems
  | _ => none
where
  go : List Json → Option (List String)
    | [] => some []
    | j :: js => do
      let s ← parseStr j
      let ss ← go js
      pure (s :: ss)

/-- The valibot PackageSchema of app/model/packages.ts: an object with
the seven string fields (version constrained to semver, tags a
non-empty string array), transformed by attaching
id := name ++ "-" ++ version. -/
def parsePackage : Json → Option Package
  | .jobj fields => do
    let name ← jsonField fields "name" >>= parseStr
    let author ← jsonField fields "author" >>= parseStr
    let description ← jsonField fields "description" >>= parseStr
    let title ← jsonField fields "title" >>= parseStr
    let version ← jsonField fields "version" >>= parseStr
    guard (isSemver version)
    let archive_url ← jsonField fields "archive_url" >>= parseStr
    let archive_sha256_url ← jsonField fields "archive_sha256_url" >>= parseStr
    let tagsJson ← jsonField fields "tags"
    let tags ← parseStrList tagsJson
    guard (!tags.isEmpty)
    pure { name := name, author := author, description := description,
           title := title, version := version, archive_url := archive_url,
           archive_sha256_url := archive_sha256_url, tags := tags,
           id := name ++ "-" ++ version }
  | _ => none

/-- v.array(PackageSchema): every element must validate. -/
def parsePackageList : List Json → Option (List Package)
  | [] => some []
  | j :: js => do
    let p ← parsePackage j
    let ps ← parsePackageList js
    pure (p :: ps)

/-- The valibot PackagesIndexSchema of app/model/packages.ts. -/
def parsePackagesIndex : Json → Option PackagesIndex
  | .jobj fields => do
    let lastUpdate ← jsonField fields "last_update" >>= parseNum
    let packagesJson ← jsonField fields "packages"
    match packagesJson with
    | .jarr elems => do
      let packages ← parsePackageList elems
      pure { last_update := lastUpdate, packages := packages }
    | _ => none
  | _ => none

/-- The HTTP response fetchPackagesIndex awaits: the ok flag, status
data and the decoded JSON body. -/
structure HttpResponse where
  ok : Bool
  status : Nat
  statusText : String
  body : Json

/-- The two Error throws of fetchPackagesIndex. -/
inductive FetchError where
  | fetchFailed (status : Nat) (statusText : String)
  | validationFailed
deriving DecidableEq

/-- The body of the fetch started by fetchPackagesIndex in
app/services/packages.ts as a function of the received response: throw
on a non-ok response, validate with PackagesIndexSchema (throw on
failure), and drop packages named "dummy-package" from the validated
output. -/
def fetchPackagesIndexResult (response : HttpResponse) : Except FetchError PackagesIndex :=
  if !response.ok then
    .error (.fetchFailed response.status response.statusText)
  else
    match parsePackagesIndex response.body with
    | some parsed =>
      .ok { parsed with
            packages := parsed.packages.filter (fun pkg => pkg.name != "dummy-package") }
    | none => .error .validationFailed

/-- getPackagesIndex from app/services/packages.ts: it catches the
fetch error only to log it and rethrows, so its result is the fetch
result. -/
def getPackagesIndexResult (response : HttpResponse) : Except FetchError PackagesIndex :=
  match fetchPackagesIndexResult response with
  | .error e => .error e
  | .ok idx => .ok idx

/-- C2: the fetch-and-validate step rejects exactly when the response
is not ok or the body fails PackagesIndexSchema validation; otherwise
it returns an index built from the validated parse, and
getPackagesIndex adds no recovery: it propagates the very same
result. -/
theorem fetchPackagesIndex_error_iff (response : HttpResponse) :
    ((∃ e, fetchPackagesIndexResult response = .error e) ↔
      (response.ok = false ∨ parsePackagesIndex response.body = none))
    ∧ (∀ idx, fetchPackagesIndexResult response = .ok idx →
        response.ok = true ∧ ∃ parsed, parsePackagesIndex response.body = some parsed
          ∧ idx = { parsed with
              packages := parsed.packages.filter (fun pkg => pkg.name != "dummy-package") })
    ∧ getPackagesIndexResult response = fetchPackagesIndexResult response := by
  have hget : getPackagesIndexResult response = fetchPackagesIndexResult response := by
    unfold getPackagesIndexResult
    cases fetchPackagesIndexResult response <;> rfl
  cases hok : response.ok with
  | false =>
    have hfetch : fetchPackagesIndexResult response =
        .error (.fetchFailed response.status response.statusText) := by
      unfold fetchPackagesIndexResult
      rw [hok]
      rfl
    refine ⟨?_, ?_, hget⟩
    · simp [hfetch]
    · intro idx hidx
      rw [hfetch] at hidx
      cases hidx
  | true =>
    cases hp : parsePackagesIndex response.body with
    | none =>
      have hfetch : fetchPackagesIndexResult response = .error .validationFailed := by
        unfold fetchPackagesIndexResult
        rw [hok, hp]
        rfl
      refine ⟨?_, ?_, hget⟩
      · simp [hfetch, hp]
      · intro idx hidx
        rw [hfetch] at hidx
        cases hidx
    | some parsed =>
      have hfetch : fetchPackagesIndexResult response =
          .ok { parsed with
                packages := parsed.packages.filter (fun pkg => pkg.name != "dummy-package") } := by
        unfold fetchPackagesIndexResult
        rw [hok, hp]
        rfl
      refine ⟨?_, ?_, hget⟩
      · simp [hfetch, hp]
      · intro idx hidx
        rw [hfetch] at hidx
        simp only [Except.ok.injEq] at hidx
        exact ⟨rfl, parsed, rfl, hidx.symm⟩

/-- JSON encoding of the demo package used by the witnesses. -/
def demoPkgJson (nm vers : String) (tags : List String) : Json :=
  .jobj [("name", .jstr nm), ("author", .jstr "alice"),
         ("description", .jstr "desc"), ("title", .jstr "Title"),
         ("version", .jstr vers), ("archive_url", .jstr "https://example.org/a.zip"),
         ("archive_sha256_url", .jstr "https://example.org/a.sha256"),
         ("tags", .jarr (tags.map Json.jstr))]

/-- A JSON index holding one real package and one dummy package. -/
def demoIndexJson : Json :=
  .jobj [("last_update", .jnum 1700000000),
         ("packages", .jarr [demoPkgJson "pkg" "1.9.0" ["emoji"],
                             demoPkgJson "dummy-package" "1.0.0" ["x"]])]

def demoOkResponse : HttpResponse :=
  { ok := true, status := 200, statusText := "OK", body := demoIndexJson }

def demoBadResponse : HttpResponse :=
  { ok := false, status := 500, statusText := "Internal Server Error", body := Json.jnull }

/-- The index demoOkResponse yields after validation and dummy
filtering. -/
def demoFilteredIdx : PackagesIndex :=
  { last_update := 1700000000, packages := [demoPkg "pkg" "1.9.0" ["emoji"]] }

/-- C2 witness: a failing status rejects, and the concrete ok response
with a valid body parses. -/
theorem fetchPackagesIndex_error_iff_witness :
    (∃ e, fetchPackagesIndexResult demoBadResponse = .error e)
    ∧ (demoOkResponse.ok = true
        ∧ ∃ parsed, parsePackagesIndex demoOkResponse.body = some parsed
          ∧ demoFilteredIdx = { parsed with
              packages := parsed.packages.filter (fun pkg => pkg.name != "dummy-package") }) :=
  ⟨(fetchPackagesIndex_error_iff demoBadResponse).1.mpr (Or.inl rfl),
   (fetchPackagesIndex_error_iff demoOkResponse).2.1 demoFilteredIdx rfl⟩

/-- Membership helper: a successful getPackageByName result is an index
entry. -/
theorem getPackageByName_mem {idx : PackagesIndex} {n : String} {r : Package}
    (h : getPackageByName idx n = some r) : r ∈ idx.packages := by
  unfold getPackageByName at h
  cases hpv : idx.packages.filter (fun pkg => pkg.name == n) with
  | nil =>
    rw [hpv] at h
    cases h
  | cons p rest =>
    rw [hpv] at h
    have h' : (jsSort pkgVersionDescLe (p :: rest)).head? = some r := h
    have hmem : r ∈ jsSort pkgVersionDescLe (p :: rest) := by
      cases hs : jsSort pkgVersionDescLe (p :: rest) with
      | nil =>
        rw [hs] at h'
        cases h'
      | cons r0 rs =>
        rw [hs] at h'
        simp only [List.head?_cons, Option.some.injEq] at h'
        rw [h']
        exact List.mem_cons_self r rs
    have : r ∈ idx.packages.filter (fun pkg => pkg.name == n) := by
      rw [hpv]
      exact (jsSort_perm pkgVersionDescLe (p :: rest)).mem_iff.mp hmem
    exact (List.mem_filter.mp this).1

/-- C8: a successfully fetched index contains no "dummy-package" entry;
it is the validated parse with exactly those entries removed and the
last_update field preserved; consequently neither getPackageByName nor
getUniquePackageNames can produce a dummy package. -/
theorem getPackagesIndex_no_dummy (response : HttpResponse) (idx : PackagesIndex)
    (h : getPackagesIndexResult response = .ok idx) :
    (∀ p ∈ idx.packages, p.name ≠ "dummy-package")
    ∧ (∃ parsed, parsePackagesIndex response.body = some parsed
        ∧ idx.last_update = parsed.last_update
        ∧ idx.packages = parsed.packages.filter (fun pkg => pkg.name != "dummy-package"))
    ∧ (∀ r n, getPackageByName idx n = some r → r.name ≠ "dummy-package")
    ∧ (∀ n ∈ getUniquePackageNames idx, n ≠ "dummy-package") := by
  have hfetch : fetchPackagesIndexResult response = .ok idx := by
    unfold getPackagesIndexResult at h
    cases hf : fetchPackagesIndexResult response with
    | error e =>
      rw [hf] at h
      cases h
    | ok idx' =>
      rw [hf] at h
      have : idx' = idx := by
        have h' : (Except.ok idx' : Except FetchError PackagesIndex) = .ok idx := h
        simpa using h'
      rw [← this]
  have hok : response.ok = true := by
    cases hokk : response.ok with
    | false =>
      unfold fetchPackagesIndexResult at hfetch
      rw [hokk] at hfetch
      cases hfetch
    | true => rfl
  obtain ⟨parsed, hp, hidx⟩ : ∃ parsed, parsePackagesIndex response.body = some parsed
      ∧ idx = { parsed with
          packages := parsed.packages.filter (fun pkg => pkg.name != "dummy-package") } := by
    unfold fetchPackagesIndexResult at hfetch
    rw [hok] at hfetch
    cases hpp : parsePackagesIndex response.body with
    | none =>
      rw [hpp] at hfetch
      cases hfetch
    | some parsed =>
      rw [hpp] at hfetch
      have hfetch' : (Except.ok { parsed with
          packages := parsed.packages.filter (fun pkg => pkg.name != "dummy-package") }
            : Except FetchError PackagesIndex) = .ok idx := hfetch
      simp only [Except.ok.injEq] at hfetch'
      exact ⟨parsed, rfl, hfetch'.symm⟩
  have hnodummy : ∀ p ∈ idx.packages, p.name ≠ "dummy-package" := by
    intro p hpmem
    rw [hidx] at hpmem
    have := (List.mem_filter.mp hpmem).2
    simpa using this
  refine ⟨hnodummy, ⟨parsed, hp, by rw [hidx], by rw [hidx]⟩, ?_, ?_⟩
  · intro r n hr
    exact hnodummy r (getPackageByName_mem hr)
  · intro n hn
    unfold getUniquePackageNames at hn
    obtain ⟨p, hpmem, rfl⟩ := List.mem_map.mp (mem_jsSetFromList.mp hn)
    exact hnodummy p hpmem

/-- C8 witness: the theorem applied to the concrete ok response, whose
validated index drops exactly the dummy entry. -/
theorem getPackagesIndex_no_dummy_witness :
    (∀ p ∈ demoFilteredIdx.packages, p.name ≠ "dummy-package")
    ∧ (∃ parsed, parsePackagesIndex demoOkResponse.body = some parsed
        ∧ demoFilteredIdx.last_update = parsed.last_update
        ∧ demoFilteredIdx.packages =
            parsed.packages.filter (fun pkg => pkg.name != "dummy-package"))
    ∧ (∀ r n, getPackageByName demoFilteredIdx n = some r → r.name ≠ "dummy-package")
    ∧ (∀ n ∈ getUniquePackageNames demoFilteredIdx, n ≠ "dummy-package") :=
  getPackagesIndex_no_dummy demoOkResponse demoFilteredIdx rfl

/-- JavaScript Map get (string keys, association list in insertion
order). -/
def mapGet (m : List (String × Nat)) (k : String) : Option Nat :=
  (m.find? (fun e => e.fst == k)).map (fun e => e.snd)

/-- JavaScript Map set: overwrite in place when the key exists, append
otherwise. -/
def mapSet (m : List (String × Nat)) (k : String) (v : Nat) : List (String × Nat) :=
  match m with
  | [] => [(k, v)]
  | e :: rest => if e.fst == k then (k, v) :: rest else e :: mapSet rest k v

/-- One tag occurrence recorded into the count map:
tagCounts.set(lowerTag, (tagCounts.get(lowerTag) ...or.. 0) + 1) with the
key already lowercased. -/
def bumpKey (m : List (String × Nat)) (k : String) : List (String × Nat) :=
  mapSet m k ((mapGet m k).getD 0 + 1)

/-- countTags from app/services/search.ts: tally every (lowercased) tag
occurrence in a Map, then emit tag/count records sorted by count
descending. -/
def countTags (packages : List Package) : List TagCount :=
  let tagCounts := packages.foldl
    (fun m pkg => pkg.tags.foldl (fun m tag => bumpKey m (jsToLower tag)) m) []
  jsSort (fun a b => decide (b.count ≤ a.count))
    (tagCounts.map (fun e => { tag := e.fst, count := e.snd }))

/-- Every tag occurrence of the package list, lowercased, in traversal
order. -/
def allLowerTags (packages : List Package) : List String :=
  (packages.flatMap (fun p => p.tags)).map jsToLower

theorem mapGet_mapSet_self (m : List (String × Nat)) (k : String) (v : Nat) :
    mapGet (mapSet m k v) k = some v := by
  induction m with
  | nil => simp [mapSet, mapGet]
  | cons e rest ih =>
    by_cases h : e.fst = k
    · simp [mapSet, mapGet, h]
    · have hb : (e.fst == k) = false := by simp [h]
      simp only [mapSet, hb, Bool.false_eq_true, if_false]
      simp only [mapGet, List.find?_cons, hb]
      exact ih

theorem mapGet_mapSet_ne (m : List (String × Nat)) (k : String) (v : Nat)
    (k' : String) (h : k' ≠ k) : mapGet (mapSet m k v) k' = mapGet m k' := by
  have hsym : ¬ k = k' := fun hc => h hc.symm
  induction m with
  | nil => simp [mapSet, mapGet, hsym]
  | cons e rest ih =>
    by_cases he : e.fst = k
    · have hb : (e.fst == k) = true := by simp [he]
      have hk' : (k == k') = false := by simp [hsym]
      have he' : (e.fst == k') = false := by simp [he, hsym]
      simp [mapSet, mapGet, hb, hk', he', List.find?_cons]
    · have hb : (e.fst == k) = false := by simp [he]
      simp only [mapSet, hb, Bool.false_eq_true, if_false]
      by_cases he' : e.fst = k'
      · simp [mapGet, List.find?_cons, he']
      · have hb' : (e.fst == k') = false := by simp [he']
        simp only [mapGet, List.find?_cons, hb']
        exact ih

theorem mem_keys_mapSet (m : List (String × Nat)) (k : String) (v : Nat)
    (x : String) :
    x ∈ (mapSet m k v).map Prod.fst ↔ x ∈ m.map Prod.fst ∨ x = k := by
  induction m with
  | nil => simp [mapSet]
  | cons e rest ih =>
    by_cases h : e.fst = k
    · have hb : (e.fst == k) = true := by simp [h]
      simp only [mapSet, hb, if_true, List.map_cons, List.mem_cons]
      subst h
      tauto
    · have hb : (e.fst == k) = false := by simp [h]
      simp only [mapSet, hb, Bool.false_eq_true, if_false, List.map_cons, List.mem_cons, ih]
      tauto

theorem keys_nodup_mapSet (m : List (String × Nat)) (k : String) (v : Nat)
    (hnd : (m.map Prod.fst).Nodup) : ((mapSet m k v).map Prod.fst).Nodup := by
  induction m with
  | nil => simp [mapSet]
  | cons e rest ih =>
    rcases List.nodup_cons.mp hnd with ⟨hhead, htail⟩
    by_cases h : e.fst = k
    · have hb : (e.fst == k) = true := by simp [h]
      simp only [mapSet, hb, if_true, List.map_cons]
      exact List.nodup_cons.mpr ⟨by rw [← h]; exact hhead, htail⟩
    · have hb : (e.fst == k) = false := by simp [h]
      simp only [mapSet, hb, Bool.false_eq_true, if_false, List.map_cons]
      refine List.nodup_cons.mpr ⟨?_, ih htail⟩
      intro hmem
      rcases (mem_keys_mapSet rest k v e.fst).mp hmem with hx | hx
      · exact hhead hx
      · exact h hx

theorem mapGet_eq_none_iff (m : List (String × Nat)) (k : String) :
    mapGet m k = none ↔ k ∉ m.map Prod.fst := by
  induction m with
  | nil => simp [mapGet]
  | cons e rest ih =>
    by_cases h : e.fst = k
    · simp [mapGet, List.find?_cons, h]
    · have hb : (e.fst == k) = false := by simp [h]
      simp only [mapGet, List.find?_cons, hb, List.map_cons, List.mem_cons]
      rw [← mapGet]
      rw [ih]
      constructor
      · intro hk hc
        rcases hc with rfl | hc
        · exact h rfl
        · exact hk hc
      · intro hk hc
        exact hk (Or.inr hc)

theorem mapGet_of_mem_nodup (m : List (String × Nat))
    (hnd : (m.map Prod.fst).Nodup) (k : String) (c : Nat)
    (hmem : (k, c) ∈ m) : mapGet m k = some c := by
  induction m with
  | nil => cases hmem
  | cons e rest ih =>
    rcases List.nodup_cons.mp hnd with ⟨hhead, htail⟩
    rcases List.mem_cons.mp hmem with rfl | hmem'
    · simp [mapGet, List.find?_cons]
    · have hk : k ∈ rest.map Prod.fst := List.mem_map.mpr ⟨(k, c), hmem', rfl⟩
      have hne : e.fst ≠ k := fun hc => hhead (hc ▸ hk)
      have hb : (e.fst == k) = false := by simp [hne]
      simp only [mapGet, List.find?_cons, hb]
      rw [← mapGet]
      exact ih htail hmem'

theorem bumpKey_def (m : List (String × Nat)) (k : String) :
    bumpKey m k = mapSet m k ((mapGet m k).getD 0 + 1) := rfl

theorem buildCounts_get (ls : List String) :
    ∀ k, mapGet (ls.foldl bumpKey []) k =
      if ls.count k = 0 then none else some (ls.count k) := by
  induction ls using List.reverseRecOn with
  | nil => intro k; simp [mapGet]
  | append_singleton ls a ih =>
    intro k
    rw [List.foldl_append]
    simp only [List.foldl_cons, List.foldl_nil]
    by_cases hk : k = a
    · subst hk
      rw [bumpKey_def, mapGet_mapSet_self]
      have hcount : (ls ++ [k]).count k = ls.count k + 1 := by
        rw [List.count_append]
        simp
      rw [hcount]
      have hgd : (mapGet (ls.foldl bumpKey []) k).getD 0 = ls.count k := by
        rw [ih k]
        by_cases h0 : ls.count k = 0
        · simp [h0]
        · simp [h0]
      rw [hgd]
      simp
    · have hsym : ¬ a = k := fun hc => hk hc.symm
      rw [bumpKey_def, mapGet_mapSet_ne _ _ _ _ hk]
      have hcount : (ls ++ [a]).count k = ls.count k := by
        rw [List.count_append, List.count_singleton]
        simp [hsym]
      rw [hcount]
      exact ih k

theorem buildCounts_keys_nodup (ls : List String) :
    ((ls.foldl bumpKey []).map Prod.fst).Nodup := by
  induction ls using List.reverseRecOn with
  | nil => simp
  | append_singleton ls a ih =>
    rw [List.foldl_append]
    simp only [List.foldl_cons, List.foldl_nil]
    exact keys_nodup_mapSet _ _ _ ih

theorem countTags_fold_eq (packages : List Package) : ∀ m0,
    packages.foldl (fun m pkg => pkg.tags.foldl (fun m tag => bumpKey m (jsToLower tag)) m) m0
      = (allLowerTags packages).foldl bumpKey m0 := by
  induction packages with
  | nil => intro m0; simp [allLowerTags]
  | cons p ps ih =>
    intro m0
    have hcons : allLowerTags (p :: ps) =
        p.tags.map jsToLower ++ allLowerTags ps := by
      unfold allLowerTags
      rw [List.flatMap_cons, List.map_append]
    rw [List.foldl_cons, hcons, List.foldl_append, ih]
    congr 1
    rw [List.foldl_map]

/-- C9: countTags emits exactly one record per distinct lowercased tag
occurring in the package list, counting every occurrence (per tag
listing, not per package), sorted by count descending. -/
theorem countTags_spec (packages : List Package) :
    ((countTags packages).map TagCount.tag).Nodup
    ∧ (∀ t, t ∈ (countTags packages).map TagCount.tag ↔ t ∈ allLowerTags packages)
    ∧ (∀ e ∈ countTags packages, e.count = (allLowerTags packages).count e.tag)
    ∧ (countTags packages).Pairwise (fun a b => b.count ≤ a.count) := by
  have htot : ∀ x y : TagCount, decide (y.count ≤ x.count) = true
      ∨ decide (x.count ≤ y.count) = true := by
    intro x y
    rcases Nat.le_total y.count x.count with h | h
    · exact Or.inl (decide_eq_true h)
    · exact Or.inr (decide_eq_true h)
  have htrans : ∀ x y z : TagCount, decide (y.count ≤ x.count) = true →
      decide (z.count ≤ y.count) = true → decide (z.count ≤ x.count) = true := by
    intro x y z h1 h2
    exact decide_eq_true (le_trans (of_decide_eq_true h2) (of_decide_eq_true h1))
  have hct : countTags packages =
      jsSort (fun a b => decide (b.count ≤ a.count))
        (((allLowerTags packages).foldl bumpKey []).map
          (fun e => { tag := e.fst, count := e.snd })) := by
    unfold countTags
    rw [countTags_fold_eq]
  have hperm : (countTags packages).Perm
      (((allLowerTags packages).foldl bumpKey []).map
        (fun e => { tag := e.fst, count := e.snd })) := by
    rw [hct]
    exact jsSort_perm _ _
  have hkeys : ((((allLowerTags packages).foldl bumpKey []).map
      (fun e => ({ tag := e.fst, count := e.snd } : TagCount))).map TagCount.tag)
        = ((allLowerTags packages).foldl bumpKey []).map Prod.fst := by
    rw [List.map_map]
    rfl
  have hmapperm := hperm.map TagCount.tag
  rw [hkeys] at hmapperm
  refine ⟨?_, ?_, ?_, ?_⟩
  · exact hmapperm.nodup_iff.mpr (buildCounts_keys_nodup _)
  · intro t
    rw [hmapperm.mem_iff]
    constructor
    · intro ht
      have hget : mapGet ((allLowerTags packages).foldl bumpKey []) t ≠ none := by
        intro hz
        exact ((mapGet_eq_none_iff _ t).mp hz) ht
      rw [buildCounts_get] at hget
      by_cases h0 : (allLowerTags packages).count t = 0
      · rw [if_pos h0] at hget
        exact absurd rfl hget
      · exact List.count_pos_iff.mp (Nat.pos_of_ne_zero h0)
    · intro ht
      have h0 : (allLowerTags packages).count t ≠ 0 :=
        Nat.pos_iff_ne_zero.mp (List.count_pos_iff.mpr ht)
      have hget : mapGet ((allLowerTags packages).foldl bumpKey []) t ≠ none := by
        rw [buildCounts_get, if_neg h0]
        intro hc
        cases hc
      by_contra hmem
      exact hget ((mapGet_eq_none_iff _ t).mpr hmem)
  · intro e he
    have he' := hperm.mem_iff.mp he
    obtain ⟨⟨k, c⟩, hkc, rfl⟩ := List.mem_map.mp he'
    have hget := mapGet_of_mem_nodup _ (buildCounts_keys_nodup _) k c hkc
    rw [buildCounts_get] at hget
    by_cases h0 : (allLowerTags packages).count k = 0
    · rw [if_pos h0] at hget
      cases hget
    · rw [if_neg h0] at hget
      simp only [Option.some.injEq] at hget
      exact hget.symm
  · rw [hct]
    exact (jsSort_pairwise htot htrans _).imp (fun h => of_decide_eq_true h)

/-- A concrete package list for the countTags witness: the tag "emoji"
occurs twice across two packages in different casings. -/
def demoTagPkgs : List Package :=
  [demoPkg "a" "1.0.0" ["Emoji", "fun"], demoPkg "b" "2.0.0" ["emoji"]]

/-- C9 witness: the concrete evaluation (emoji counted twice over both
casings, sorted descending) together with the theorem instantiated on
the same list. -/
theorem countTags_spec_witness :
    countTags demoTagPkgs = [{ tag := "emoji", count := 2 }, { tag := "fun", count := 1 }]
    ∧ (countTags demoTagPkgs).Pairwise (fun a b => b.count ≤ a.count) :=
  ⟨by decide, (countTags_spec demoTagPkgs).2.2.2⟩

/-- The character class of the capture group components: anything but a
slash. -/
def notSlash (c : Char) : Bool := !(c == '/')

/-- The literal part of the getGitHubUrl regex. -/
def ghMarker : List Char := "github.com/".data

/-- One attempt of the regex at a fixed start position: the literal
"github.com/", then a maximal non-empty run of non-slash characters,
a slash, and another maximal non-empty run of non-slash characters;
returns the capture group. -/
def matchOwnerRepo (xs : List Char) : Option (List Char) :=
  if ghMarker.isPrefixOf xs then
    if ((xs.drop ghMarker.length).takeWhile notSlash).isEmpty then none
    else
      match (xs.drop ghMarker.length).dropWhile notSlash with
      | '/' :: rest =>
        if (rest.takeWhile notSlash).isEmpty then none
        else some ((xs.drop ghMarker.length).takeWhile notSlash
          ++ ('/' :: rest.takeWhile notSlash))
      | _ => none
  else none

/-- The regex search: try every start position left to right, as
String.prototype.match does. -/
def findOwnerRepo : List Char → Option (List Char)
  | [] => none
  | c :: rest =>
    match matchOwnerRepo (c :: rest) with
    | some g => some g
    | none => findOwnerRepo rest

/-- getGitHubUrl from app/routes/package.tsx:
archiveUrl.match(github.com slash capture-group regex), and on a match
the prefix "https://github.com/" glued to the first capture group. -/
def getGitHubUrl (archiveUrl : String) : Option String :=
  (findOwnerRepo archiveUrl.data).map (fun g => "https://github.com/" ++ String.mk g)

/-- Spec-side description of one owner/repo occurrence: the input
splits as pre ++ "github.com/" ++ owner ++ "/" ++ repo ++ suf with
owner and repo non-empty and slash-free. -/
def ownerRepoSplit (s pre owner repo suf : List Char) : Prop :=
  s = pre ++ (ghMarker ++ (owner ++ ('/' :: (repo ++ suf))))
  ∧ owner ≠ [] ∧ repo ≠ [] ∧ (∀ c ∈ owner, c ≠ '/') ∧ (∀ c ∈ repo, c ≠ '/')

theorem notSlash_true_iff {c : Char} : notSlash c = true ↔ c ≠ '/' := by
  simp [notSlash]

theorem notSlash_false_iff {c : Char} : notSlash c = false ↔ c = '/' := by
  simp [notSlash]

theorem takeWhile_slash_append (owner rest : List Char)
    (hown : ∀ c ∈ owner, notSlash c = true) :
    (owner ++ '/' :: rest).takeWhile notSlash = owner
    ∧ (owner ++ '/' :: rest).dropWhile notSlash = '/' :: rest := by
  induction owner with
  | nil =>
    constructor
    · simp [List.takeWhile, notSlash]
    · simp [List.dropWhile, notSlash]
  | cons a l ih =>
    have ha : notSlash a = true := hown a (List.mem_cons_self a l)
    have hl : ∀ c ∈ l, notSlash c = true :=
      fun c hc => hown c (List.mem_cons_of_mem a hc)
    obtain ⟨iht, ihd⟩ := ih hl
    constructor
    · simp only [List.cons_append, List.takeWhile_cons, ha, if_true, iht]
    · simp only [List.cons_append, List.dropWhile_cons, ha, if_true, ihd]

theorem dropWhile_cons_head_false {α : Type} {p : α → Bool} {l : List α}
    {c : α} {rest : List α} (h : l.dropWhile p = c :: rest) : p c = false := by
  induction l with
  | nil => cases h
  | cons a as ih =>
    by_cases hp : p a
    · rw [List.dropWhile_cons, if_pos hp] at h
      exact ih h
    · rw [List.dropWhile_cons, if_neg hp] at h
      injection h with h1 _
      rw [← h1]
      exact Bool.eq_false_iff.mpr hp

theorem matchOwnerRepo_eq_some (xs g : List Char)
    (h : matchOwnerRepo xs = some g) :
    ∃ owner repo suf, xs = ghMarker ++ (owner ++ ('/' :: (repo ++ suf)))
      ∧ owner ≠ [] ∧ repo ≠ []
      ∧ (∀ c ∈ owner, c ≠ '/') ∧ (∀ c ∈ repo, c ≠ '/')
      ∧ g = owner ++ ('/' :: repo) := by
  unfold matchOwnerRepo at h
  by_cases hpre : ghMarker.isPrefixOf xs
  case neg =>
    rw [if_neg hpre] at h
    cases h
  rw [if_pos hpre] at h
  by_cases hemp : ((xs.drop ghMarker.length).takeWhile notSlash).isEmpty
  case pos =>
    rw [if_pos hemp] at h
    cases h
  rw [if_neg hemp] at h
  cases hdrop : (xs.drop ghMarker.length).dropWhile notSlash with
  | nil =>
    rw [hdrop] at h
    cases h
  | cons c rest =>
    rw [hdrop] at h
    have hc : c = '/' := notSlash_false_iff.mp (dropWhile_cons_head_false hdrop)
    subst hc
    have h' : (if (rest.takeWhile notSlash).isEmpty then none
        else some ((xs.drop ghMarker.length).takeWhile notSlash
          ++ ('/' :: rest.takeWhile notSlash))) = some g := h
    by_cases hremp : (rest.takeWhile notSlash).isEmpty
    case pos =>
      rw [if_pos hremp] at h'
      cases h'
    rw [if_neg hremp] at h'
    simp only [Option.some.injEq] at h'
    refine ⟨(xs.drop ghMarker.length).takeWhile notSlash, rest.takeWhile notSlash,
      rest.dropWhile notSlash, ?_, ?_, ?_, ?_, ?_, h'.symm⟩
    · have hx : ghMarker ++ xs.drop ghMarker.length = xs :=
        List.prefix_iff_eq_append.mp (List.isPrefixOf_iff_prefix.mp hpre)
      calc xs = ghMarker ++ xs.drop ghMarker.length := hx.symm
        _ = ghMarker ++ ((xs.drop ghMarker.length).takeWhile notSlash
              ++ (xs.drop ghMarker.length).dropWhile notSlash) := by
            rw [List.takeWhile_append_dropWhile]
        _ = ghMarker ++ ((xs.drop ghMarker.length).takeWhile notSlash
              ++ ('/' :: (rest.takeWhile notSlash ++ rest.dropWhile notSlash))) := by
            rw [hdrop, List.takeWhile_append_dropWhile]
    · intro hnil
      rw [hnil] at hemp
      exact hemp rfl
    · intro hnil
      rw [hnil] at hremp
      exact hremp rfl
    · intro c hc
      exact notSlash_true_iff.mp (List.mem_takeWhile_imp hc)
    · intro c hc
      exact notSlash_true_iff.mp (List.mem_takeWhile_imp hc)

theorem matchOwnerRepo_isSome (owner repo suf : List Char)
    (howner : owner ≠ []) (hrepo : repo ≠ [])
    (hso : ∀ c ∈ owner, c ≠ '/') (hsr : ∀ c ∈ repo, c ≠ '/') :
    ∃ g, matchOwnerRepo (ghMarker ++ (owner ++ ('/' :: (repo ++ suf)))) = some g := by
  have hso' : ∀ c ∈ owner, notSlash c = true :=
    fun c hc => notSlash_true_iff.mpr (hso c hc)
  have hpre : ghMarker.isPrefixOf (ghMarker ++ (owner ++ ('/' :: (repo ++ suf)))) = true :=
    List.isPrefixOf_iff_prefix.mpr ⟨_, rfl⟩
  have hdropm : (ghMarker ++ (owner ++ ('/' :: (repo ++ suf)))).drop ghMarker.length
      = owner ++ ('/' :: (repo ++ suf)) := List.drop_left _ _
  obtain ⟨htw, hdw⟩ := takeWhile_slash_append owner (repo ++ suf) hso'
  have hoe : owner.isEmpty = false := by
    cases owner with
    | nil => exact absurd rfl howner
    | cons a l => rfl
  unfold matchOwnerRepo
  rw [if_pos hpre, hdropm, htw, hdw]
  rw [if_neg (by rw [hoe]; intro hc; cases hc)]
  cases repo with
  | nil => exact absurd rfl hrepo
  | cons r rtail =>
    have hr : notSlash r = true :=
      notSlash_true_iff.mpr (hsr r (List.mem_cons_self r rtail))
    have htwr : ((r :: rtail ++ suf).takeWhile notSlash).isEmpty = false := by
      simp only [List.cons_append, List.takeWhile_cons, hr, if_true]
      rfl
    refine ⟨owner ++ ('/' :: (r :: rtail ++ suf).takeWhile notSlash), ?_⟩
    show (if ((r :: rtail ++ suf).takeWhile notSlash).isEmpty = true then none
        else some (owner ++ ('/' :: (r :: rtail ++ suf).takeWhile notSlash)))
      = some (owner ++ ('/' :: (r :: rtail ++ suf).takeWhile notSlash))
    rw [if_neg (by rw [htwr]; intro hc; cases hc)]

theorem findOwnerRepo_eq_none (xs : List Char) (h : findOwnerRepo xs = none) :
    ∀ n, matchOwnerRepo (xs.drop n) = none := by
  induction xs with
  | nil =>
    intro n
    rw [List.drop_nil]
    rfl
  | cons c rest ih =>
    have hsplit : matchOwnerRepo (c :: rest) = none ∧ findOwnerRepo rest = none := by
      unfold findOwnerRepo at h
      cases hm : matchOwnerRepo (c :: rest) with
      | some g =>
        rw [hm] at h
        cases h
      | none =>
        rw [hm] at h
        exact ⟨rfl, h⟩
    intro n
    cases n with
    | zero => simpa using hsplit.1
    | succ m => simpa using ih hsplit.2 m

theorem findOwnerRepo_eq_some (xs g : List Char) (h : findOwnerRepo xs = some g) :
    ∃ n, matchOwnerRepo (xs.drop n) = some g
      ∧ ∀ m, m < n → matchOwnerRepo (xs.drop m) = none := by
  induction xs with
  | nil => cases h
  | cons c rest ih =>
    unfold findOwnerRepo at h
    cases hm : matchOwnerRepo (c :: rest) with
    | some g0 =>
      rw [hm] at h
      have hg : g0 = g := by simpa using h
      subst hg
      exact ⟨0, by simpa using hm, fun m hm' => absurd hm' (Nat.not_lt_zero m)⟩
    | none =>
      rw [hm] at h
      obtain ⟨n, hn, hmin⟩ := ih h
      refine ⟨n + 1, by simpa using hn, ?_⟩
      intro m hm'
      cases m with
      | zero => simpa using hm
      | succ m' => simpa using hmin m' (Nat.lt_of_succ_lt_succ hm')

/-- C6: getGitHubUrl is null exactly when the input has no
github.com/owner/repo occurrence, and on success it returns
"https://github.com/" glued to the owner/repo capture of the earliest
such occurrence. -/
theorem getGitHubUrl_spec (archiveUrl : String) :
    (getGitHubUrl archiveUrl = none ↔
      ¬ ∃ pre owner repo suf, ownerRepoSplit archiveUrl.data pre owner repo suf)
    ∧ (∀ r, getGitHubUrl archiveUrl = some r →
        ∃ pre owner repo suf, ownerRepoSplit archiveUrl.data pre owner repo suf
          ∧ r = "https://github.com/" ++ String.mk (owner ++ ('/' :: repo))
          ∧ ∀ pre' owner' repo' suf',
              ownerRepoSplit archiveUrl.data pre' owner' repo' suf' →
                pre.length ≤ pre'.length) := by
  constructor
  · constructor
    · intro hnone hex
      have hfind : findOwnerRepo archiveUrl.data = none := by
        unfold getGitHubUrl at hnone
        cases hf : findOwnerRepo archiveUrl.data with
        | none => rfl
        | some g =>
          rw [hf] at hnone
          cases hnone
      obtain ⟨pre, owner, repo, suf, heq, ho, hrp, hso, hsr⟩ := hex
      obtain ⟨g, hg⟩ := matchOwnerRepo_isSome owner repo suf ho hrp hso hsr
      have hdrop : archiveUrl.data.drop pre.length
          = ghMarker ++ (owner ++ ('/' :: (repo ++ suf))) := by
        rw [heq, List.drop_left]
      have hnone' := findOwnerRepo_eq_none _ hfind pre.length
      rw [hdrop, hg] at hnone'
      cases hnone'
    · intro hnotex
      cases hf : findOwnerRepo archiveUrl.data with
      | none =>
        unfold getGitHubUrl
        rw [hf]
        rfl
      | some g =>
        exfalso
        obtain ⟨n, hn, _⟩ := findOwnerRepo_eq_some _ _ hf
        obtain ⟨owner, repo, suf, hdec, ho, hrp, hso, hsr, hg⟩ :=
          matchOwnerRepo_eq_some _ _ hn
        refine hnotex ⟨archiveUrl.data.take n, owner, repo, suf, ?_, ho, hrp, hso, hsr⟩
        calc archiveUrl.data
            = archiveUrl.data.take n ++ archiveUrl.data.drop n :=
              (List.take_append_drop n archiveUrl.data).symm
          _ = archiveUrl.data.take n ++ (ghMarker ++ (owner ++ ('/' :: (repo ++ suf)))) := by
              rw [hdec]
  · intro r hr
    unfold getGitHubUrl at hr
    cases hf : findOwnerRepo archiveUrl.data with
    | none =>
      rw [hf] at hr
      cases hr
    | some g =>
      rw [hf] at hr
      have hr' : some ("https://github.com/" ++ String.mk g) = some r := hr
      simp only [Option.some.injEq] at hr'
      obtain ⟨n, hn, hmin⟩ := findOwnerRepo_eq_some _ _ hf
      obtain ⟨owner, repo, suf, hdec, ho, hrpne, hso, hsr, hg⟩ :=
        matchOwnerRepo_eq_some _ _ hn
      refine ⟨archiveUrl.data.take n, owner, repo, suf, ⟨?_, ho, hrpne, hso, hsr⟩, ?_, ?_⟩
      · calc archiveUrl.data
            = archiveUrl.data.take n ++ archiveUrl.data.drop n :=
              (List.take_append_drop n archiveUrl.data).symm
          _ = archiveUrl.data.take n ++ (ghMarker ++ (owner ++ ('/' :: (repo ++ suf)))) := by
              rw [hdec]
      · rw [← hr', hg]
      · intro pre' owner' repo' suf' hdec'
        obtain ⟨heq', ho', hrp', hso', hsr'⟩ := hdec'
        by_contra hlt
        push_neg at hlt
        have hlen : (archiveUrl.data.take n).length ≤ n := by
          rw [List.length_take]
          exact min_le_left _ _
        have hlt' : pre'.length < n := lt_of_lt_of_le hlt hlen
        have hnone := hmin pre'.length hlt'
        obtain ⟨g', hg'⟩ := matchOwnerRepo_isSome owner' repo' suf' ho' hrp' hso' hsr'
        rw [heq', List.drop_left, hg'] at hnone
        cases hnone

/-- C6 witness: a concrete GitHub archive URL evaluates to the expected
repository link, and the theorem yields that a URL without a match has
no owner/repo decomposition. -/
theorem getGitHubUrl_spec_witness :
    getGitHubUrl "https://github.com/espanso/hub/releases/a.zip"
      = some "https://github.com/espanso/hub"
    ∧ ¬ ∃ pre owner repo suf,
        ownerRepoSplit ("https://example.org/a.zip").data pre owner repo suf :=
  ⟨by decide, (getGitHubUrl_spec "https://example.org/a.zip").1.mp (by decide)⟩

/-- The module-level state of app/services/packages.ts: the cached
index, the in-flight (or settled) fetch promise identified by a promise
id, a fresh-id counter, and the ids of promises that rejected.  The
source never resets cachedPackagesIndex or fetchPromise. -/
structure FetchCacheState where
  cachedPackagesIndex : Option PackagesIndex
  fetchPromise : Option Nat
  nextPromiseId : Nat
  rejected : List Nat
deriving DecidableEq

/-- Module state at process start: both module-level variables null. -/
def initialFetchState : FetchCacheState :=
  { cachedPackagesIndex := none, fetchPromise := none, nextPromiseId := 0, rejected := [] }

/-- What a caller of fetchPackagesIndex receives: the cached value
resolved immediately, or a promise (pending, fulfilled or rejected). -/
inductive FetchCallResult where
  | cachedValue (idx : PackagesIndex)
  | promise (pid : Nat)
deriving DecidableEq

/-- One call of fetchPackagesIndex: return the cache when set, else the
stored promise when set, else start a new network fetch, store its
promise and return it.  The Bool reports whether this call initiated a
network fetch. -/
def fetchPackagesIndexCall (s : FetchCacheState) :
    FetchCallResult × FetchCacheState × Bool :=
  match s.cachedPackagesIndex with
  | some idx => (.cachedValue idx, s, false)
  | none =>
    match s.fetchPromise with
    | some pid => (.promise pid, s, false)
    | none =>
      (.promise s.nextPromiseId,
       { s with fetchPromise := some s.nextPromiseId,
                nextPromiseId := s.nextPromiseId + 1 },
       true)

/-- Events of one build process: a caller invokes fetchPackagesIndex,
or the in-flight fetch settles (successfully, storing the result in the
cache, or with an error, leaving the cache empty and the stored promise
rejected). -/
inductive FetchEvent where
  | call
  | completeOk (idx : PackagesIndex)
  | completeErr
deriving DecidableEq

/-- State transition of one event, also reporting whether a network
fetch was initiated. -/
def fetchStep (s : FetchCacheState) : FetchEvent → FetchCacheState × Bool
  | .call =>
    match fetchPackagesIndexCall s with
    | (_, s', started) => (s', started)
  | .completeOk idx => ({ s with cachedPackagesIndex := some idx }, false)
  | .completeErr =>
    match s.fetchPromise with
    | some pid => ({ s with rejected := pid :: s.rejected }, false)
    | none => (s, false)

/-- Run a trace of events. -/
def runFetchTrace (s : FetchCacheState) : List FetchEvent → FetchCacheState
  | [] => s
  | e :: tr => runFetchTrace (fetchStep s e).1 tr

/-- Number of network fetches initiated along a trace. -/
def fetchCount (s : FetchCacheState) : List FetchEvent → Nat
  | [] => 0
  | e :: tr =>
    (if (fetchStep s e).2 then 1 else 0) + fetchCount (fetchStep s e).1 tr

theorem fetchStep_keeps_promise (s : FetchCacheState) (e : FetchEvent)
    (h : s.fetchPromise.isSome) :
    ((fetchStep s e).1).fetchPromise = s.fetchPromise := by
  cases e with
  | call =>
    cases hc : s.cachedPackagesIndex with
    | some idx => simp [fetchStep, fetchPackagesIndexCall, hc]
    | none =>
      cases hp : s.fetchPromise with
      | some pid => simp [fetchStep, fetchPackagesIndexCall, hc, hp]
      | none =>
        rw [hp] at h
        cases h
  | completeOk idx => rfl
  | completeErr =>
    cases hp : s.fetchPromise with
    | some pid => simp [fetchStep, hp]
    | none => simp [fetchStep, hp]

theorem fetchStep_not_started (s : FetchCacheState) (e : FetchEvent)
    (h : s.fetchPromise.isSome) : (fetchStep s e).2 = false := by
  cases e with
  | call =>
    cases hc : s.cachedPackagesIndex with
    | some idx => simp [fetchStep, fetchPackagesIndexCall, hc]
    | none =>
      cases hp : s.fetchPromise with
      | some pid => simp [fetchStep, fetchPackagesIndexCall, hc, hp]
      | none =>
        rw [hp] at h
        cases h
  | completeOk idx => rfl
  | completeErr =>
    cases hp : s.fetchPromise with
    | some pid => simp [fetchStep, hp]
    | none => simp [fetchStep, hp]

theorem fetchStep_started_promise (s : FetchCacheState) (e : FetchEvent)
    (h : (fetchStep s e).2 = true) : ((fetchStep s e).1).fetchPromise.isSome := by
  cases e with
  | call =>
    cases hc : s.cachedPackagesIndex with
    | some idx => simp [fetchStep, fetchPackagesIndexCall, hc] at h
    | none =>
      cases hp : s.fetchPromise with
      | some pid => simp [fetchStep, fetchPackagesIndexCall, hc, hp] at h
      | none => simp [fetchStep, fetchPackagesIndexCall, hc, hp]
  | completeOk idx => cases h
  | completeErr =>
    cases hp : s.fetchPromise with
    | some pid =>
      rw [fetchStep, hp] at h
      cases h
    | none =>
      rw [fetchStep, hp] at h
      cases h

theorem fetchCount_zero_of_promise (tr : List FetchEvent) :
    ∀ s : FetchCacheState, s.fetchPromise.isSome → fetchCount s tr = 0 := by
  induction tr with
  | nil => intro s _; rfl
  | cons e tr ih =>
    intro s h
    unfold fetchCount
    rw [fetchStep_not_started s e h]
    have h' : ((fetchStep s e).1).fetchPromise.isSome := by
      rw [fetchStep_keeps_promise s e h]
      exact h
    rw [ih _ h']
    simp

theorem fetchCount_le_one (tr : List FetchEvent) :
    ∀ s : FetchCacheState, fetchCount s tr ≤ 1 := by
  induction tr with
  | nil => intro s; exact Nat.zero_le 1
  | cons e tr ih =>
    intro s
    unfold fetchCount
    cases hstart : (fetchStep s e).2 with
    | false => simpa using ih (fetchStep s e).1
    | true =>
      rw [fetchCount_zero_of_promise tr _ (fetchStep_started_promise s e hstart)]
      simp

theorem runFetchTrace_snoc (tr : List FetchEvent) :
    ∀ (s : FetchCacheState) (e : FetchEvent),
      runFetchTrace s (tr ++ [e]) = (fetchStep (runFetchTrace s tr) e).1 := by
  induction tr with
  | nil => intro s e; rfl
  | cons e0 tr ih =>
    intro s e
    unfold runFetchTrace
    exact ih _ e

/-- C1: along every event trace of one build process at most one
network fetch is ever initiated; a call that finds the cache set
resolves to the cached index without fetching; a call that finds a
stored promise (pending or rejected) returns that same promise without
fetching; and after the in-flight fetch fails the stored promise is the
rejected one and every later call returns exactly it, so there is no
retry. -/
theorem fetchPackagesIndex_single_fetch :
    (∀ tr : List FetchEvent, fetchCount initialFetchState tr ≤ 1)
    ∧ (∀ (s : FetchCacheState) (idx : PackagesIndex),
        s.cachedPackagesIndex = some idx →
        fetchPackagesIndexCall s = (.cachedValue idx, s, false))
    ∧ (∀ (s : FetchCacheState) (pid : Nat),
        s.cachedPackagesIndex = none → s.fetchPromise = some pid →
        fetchPackagesIndexCall s = (.promise pid, s, false))
    ∧ (∀ (tr : List FetchEvent) (pid : Nat),
        (runFetchTrace initialFetchState tr).fetchPromise = some pid →
        (runFetchTrace initialFetchState tr).cachedPackagesIndex = none →
        pid ∈ (runFetchTrace initialFetchState (tr ++ [FetchEvent.completeErr])).rejected
        ∧ fetchPackagesIndexCall
            (runFetchTrace initialFetchState (tr ++ [FetchEvent.completeErr]))
          = (.promise pid,
             runFetchTrace initialFetchState (tr ++ [FetchEvent.completeErr]), false)) := by
  have hcached : ∀ (s : FetchCacheState) (idx : PackagesIndex),
      s.cachedPackagesIndex = some idx →
      fetchPackagesIndexCall s = (.cachedValue idx, s, false) := by
    intro s idx h
    unfold fetchPackagesIndexCall
    rw [h]
  have hpending : ∀ (s : FetchCacheState) (pid : Nat),
      s.cachedPackagesIndex = none → s.fetchPromise = some pid →
      fetchPackagesIndexCall s = (.promise pid, s, false) := by
    intro s pid hc hp
    unfold fetchPackagesIndexCall
    rw [hc, hp]
  refine ⟨fun tr => fetchCount_le_one tr initialFetchState, hcached, hpending, ?_⟩
  intro tr pid hp hc
  have hsnoc := runFetchTrace_snoc tr initialFetchState FetchEvent.completeErr
  have hstep : fetchStep (runFetchTrace initialFetchState tr) FetchEvent.completeErr
      = ({ runFetchTrace initialFetchState tr with
            rejected := pid :: (runFetchTrace initialFetchState tr).rejected }, false) := by
    simp [fetchStep, hp]
  have hs' : runFetchTrace initialFetchState (tr ++ [FetchEvent.completeErr])
      = { runFetchTrace initialFetchState tr with
          rejected := pid :: (runFetchTrace initialFetchState tr).rejected } := by
    rw [hsnoc, hstep]
  constructor
  · rw [hs']
    exact List.mem_cons_self pid _
  · exact hpending _ pid (by rw [hs']; exact hc) (by rw [hs']; exact hp)

/-- C1 witness: on the concrete trace call, call, failure, call the
fetch is started once, and after the failure the stored (rejected)
promise 0 is what a further call receives, with no new fetch. -/
theorem fetchPackagesIndex_single_fetch_witness :
    fetchCount initialFetchState
      [FetchEvent.call, FetchEvent.call, FetchEvent.completeErr, FetchEvent.call] ≤ 1
    ∧ (0 ∈ (runFetchTrace initialFetchState
          ([FetchEvent.call] ++ [FetchEvent.completeErr])).rejected
       ∧ fetchPackagesIndexCall
            (runFetchTrace initialFetchState ([FetchEvent.call] ++ [FetchEvent.completeErr]))
          = (.promise 0,
             runFetchTrace initialFetchState ([FetchEvent.call] ++ [FetchEvent.completeErr]),
             false)) :=
  ⟨fetchPackagesIndex_single_fetch.1 _,
   fetchPackagesIndex_single_fetch.2.2.2 [FetchEvent.call] 0 (by decide) (by decide)⟩

/-- C4 witness: the characterization at a concrete package list and the
non-empty tag list ["Emoji"]. -/
theorem filterByTags_or_semantics_witness :
    (demoPkg "a" "1.0.0" ["emoji", "fun"] ∈
        filterByTags [demoPkg "a" "1.0.0" ["emoji", "fun"]] ["Emoji"]
      ↔ demoPkg "a" "1.0.0" ["emoji", "fun"] ∈ [demoPkg "a" "1.0.0" ["emoji", "fun"]]
        ∧ ∃ t ∈ (demoPkg "a" "1.0.0" ["emoji", "fun"]).tags,
            ∃ s ∈ ["Emoji"], jsToLower t = jsToLower s) :=
  (filterByTags_or_semantics [demoPkg "a" "1.0.0" ["emoji", "fun"]] ["Emoji"]
    (by decide)).1 (demoPkg "a" "1.0.0" ["emoji", "fun"])

end Hub
